import Mathlib

/-!
Verification of the AerialLidarPP path planner
(`src/pathplan/path_planner_numpy.py`) against its natural-language
specification.

The numeric code is shallowly embedded:
* the altitude smoother `smooth_line` works over `ℚ` (the Python floats
  are modelled as exact rationals);
* the segment interpolator `gen_segment` works over `ℝ` (its segment
  length is `math.hypot`, a square root);
* the grid traversal `raster_line` works over integer raster cells,
  with its progress comparison carried out in `ℚ` exactly as the source
  divides `(ix + 0.5) / dx`.

Python code that raises (`IndexError`, `ZeroDivisionError`) is modelled
by `Option`: `none` marks exactly the inputs on which the source raises.
-/

namespace AerialLidarPP

/-! ### SlopeSmoother: `smooth_line` (source lines 167-259)

The peak-extraction scan keeps `going_up`, `peaks` and `peak_inds`;
Python mutates the two lists by `append` / `pop` at the tail, modelled
here as `++ [·]` / `dropLast`.  The parallel value/index lists are kept
exactly as in the source. -/

structure PeakState where
  goingUp : Bool
  peaks : List ℚ
  peakInds : List ℕ
deriving DecidableEq, Repr

/-- Body of the scan loop `for i in range(1, len(points) - 1)`
(source lines 185-203).  `z > points[i-1]` continues or starts a rise
(replacing the last recorded peak while already rising),
`z < points[i-1]` clears the flag, and a flat step falls through both
branches leaving the state untouched. -/
def peakStep (points : List ℚ) (st : PeakState) (i : ℕ) : PeakState :=
  let z := points.getD i 0
  if z > points.getD (i - 1) 0 then
    if st.goingUp then
      ⟨true, st.peaks.dropLast ++ [z], st.peakInds.dropLast ++ [i]⟩
    else
      ⟨true, st.peaks ++ [z], st.peakInds ++ [i]⟩
  else if z < points.getD (i - 1) 0 then
    ⟨false, st.peaks, st.peakInds⟩
  else
    st

/-- State after the scan loop, seeded with `points[0]` at index 0
(source lines 181-203).  `range(1, len(points) - 1)` is
`List.range' 1 (points.length - 2)`. -/
def peakScan (points : List ℚ) : PeakState :=
  (List.range' 1 (points.length - 2)).foldl (peakStep points) ⟨false, [points.getD 0 0], [0]⟩

/-- Recorded peak values with the final sample appended
(source line 205). -/
def fullPeaks (points : List ℚ) : List ℚ :=
  (peakScan points).peaks ++ [points.getD (points.length - 1) 0]

/-- Recorded peak indices with the final index appended
(source line 206). -/
def fullPeakInds (points : List ℚ) : List ℕ :=
  (peakScan points).peakInds ++ [points.length - 1]

/-- Peak-to-peak slopes, `for i in range(1, len(peaks))`
(source lines 212-214). -/
def slopesOf (peaks : List ℚ) (inds : List ℕ) : List ℚ :=
  (List.range' 1 (peaks.length - 1)).map fun i =>
    (peaks.getD i 0 - peaks.getD (i - 1) 0) /
      ((inds.getD i 0 : ℚ) - (inds.getD (i - 1) 0 : ℚ))

/-- Whether some slope denominator `peak_inds[i] - peak_inds[i-1]` is
zero, in which case the Python slope loop raises `ZeroDivisionError`. -/
def divisorZero (peaks : List ℚ) (inds : List ℕ) : Bool :=
  (List.range' 1 (peaks.length - 1)).any fun i =>
    inds.getD i 0 == inds.getD (i - 1) 0

/-- Slopes of the recorded peaks of `points`. -/
def slopesFull (points : List ℚ) : List ℚ :=
  slopesOf (fullPeaks points) (fullPeakInds points)

/-- Body of the forward (negative-slope) smoothing inner loop
(source lines 227-236): conditionally overwrite `new_points[j]` from
its predecessor. -/
def fwdStep (mhd s : ℚ) (np : List ℚ) (j : ℕ) : List ℚ :=
  if s < mhd * -1 then
    if np.getD (j - 1) 0 - mhd > np.getD j 0 then np.set j (np.getD (j - 1) 0 - mhd) else np
  else
    if np.getD (j - 1) 0 + s > np.getD j 0 then np.set j (np.getD (j - 1) 0 + s) else np

/-- Forward pass over negative-slope peak intervals
(source lines 220-236); `range(peak_ind_0 + 1, peak_ind_1 + 1)` is
`List.range' (a + 1) (b - a)`. -/
def fwdPass (mhd : ℚ) (slopes : List ℚ) (peakInds : List ℕ) (np0 : List ℚ) : List ℚ :=
  (List.range slopes.length).foldl
    (fun np i =>
      if slopes.getD i 0 ≥ 0 then np
      else
        (List.range' (peakInds.getD i 0 + 1)
            (peakInds.getD (i + 1) 0 - peakInds.getD i 0)).foldl
          (fwdStep mhd (slopes.getD i 0)) np)
    np0

/-- Body of the backward (non-negative-slope) smoothing inner loop
(source lines 248-257): conditionally overwrite `new_points[j]` from
its successor. -/
def bwdStep (mhd s : ℚ) (np : List ℚ) (j : ℕ) : List ℚ :=
  if s > mhd then
    if np.getD (j + 1) 0 - mhd > np.getD j 0 then np.set j (np.getD (j + 1) 0 - mhd) else np
  else
    if np.getD (j + 1) 0 - s > np.getD j 0 then np.set j (np.getD (j + 1) 0 - s) else np

/-- Backward pass over non-negative-slope peak intervals
(source lines 240-257); both the interval iteration and the index
iteration `range(peak_ind_0, peak_ind_1)` run reversed. -/
def bwdPass (mhd : ℚ) (slopes : List ℚ) (peakInds : List ℕ) (np0 : List ℚ) : List ℚ :=
  (List.range slopes.length).reverse.foldl
    (fun np i =>
      if slopes.getD i 0 < 0 then np
      else
        ((List.range' (peakInds.getD i 0)
            (peakInds.getD (i + 1) 0 - peakInds.getD i 0)).reverse).foldl
          (bwdStep mhd (slopes.getD i 0)) np)
    np0

/-- `smooth_line(points, max_height_diff)` (source lines 167-259).
`none` models the raises of the source: the seed access `points[0]`
raises `IndexError` on the empty list, and the slope loop raises
`ZeroDivisionError` when two consecutive recorded peak indices
coincide (which happens exactly for one-element input, where
`peak_inds = [0, 0]`; for length ≥ 2 the indices are strictly
increasing, see `fullPeakInds_sorted` / `divisorZero_eq_false`). -/
def smooth_line (points : List ℚ) (max_height_diff : ℚ) : Option (List ℚ) :=
  if points = [] then none
  else if divisorZero (fullPeaks points) (fullPeakInds points) then none
  else
    some (bwdPass max_height_diff (slopesFull points) (fullPeakInds points)
      (fwdPass max_height_diff (slopesFull points) (fullPeakInds points) points))

/-! ### SegmentInterpolator: `gen_segment` and `gen_path`
(source lines 32-106)

The Python floats are modelled as real numbers (`math.hypot` is a
square root, so `ℚ` does not suffice); the raster is a total height
function on integer cells, matching the unchecked `surface_raster[int(y)][int(x)]`
access of the source.  `PATH_SPACING` and `HEIGHT_TOL` are module
constants in the source; the spec's interface (§6) passes the spacing
explicitly and the claims quantify over it, so `gen_segment` takes it
as a parameter, with `PATH_SPACING` recording the source's value. -/

noncomputable section

/-- Python `int(r)`: truncation toward zero. -/
def pyInt (r : ℝ) : ℤ := if 0 ≤ r then ⌊r⌋ else -⌊-r⌋

/-- Module constant `HEIGHT_TOL = 3` (source line 21), the clearance
added above the surface model. -/
def HEIGHT_TOL : ℝ := 3

/-- Module constant `PATH_SPACING = 0.5` (source line 22). -/
def PATH_SPACING : ℝ := 1 / 2

/-- Euclidean segment length `hypot(delta_x, delta_y)`
(source line 68). -/
def seg_dist (wp0 wp1 : ℝ × ℝ) : ℝ :=
  Real.sqrt ((wp1.1 - wp0.1) ^ 2 + (wp1.2 - wp0.2) ^ 2)

/-- The sampling loop `while curr_dist < seg_dist` of `gen_segment`
(source lines 84-96): emit the current position with the raster height
plus clearance, then advance by `spacing` along the segment.  The
source's guard is just `curr_dist < seg_dist`; the conjunct
`0 < spacing` (true at every call site the claims speak about; the
Python loop would not terminate without it) makes the recursion
well-founded. -/
def genSegLoop (surface_raster : ℤ → ℤ → ℝ) (delta_x delta_y sd spacing : ℝ)
    (x y curr_dist : ℝ) : List (ℝ × ℝ × ℝ) :=
  if h : 0 < spacing ∧ curr_dist < sd then
    (x, y, surface_raster (pyInt y) (pyInt x) + HEIGHT_TOL) ::
      genSegLoop surface_raster delta_x delta_y sd spacing
        (x + delta_x * spacing / sd) (y + delta_y * spacing / sd) (curr_dist + spacing)
  else []
termination_by Nat.ceil ((sd - curr_dist) / spacing)
decreasing_by
  have hs := h.1
  have hlt := h.2
  have ht : (0 : ℝ) < (sd - curr_dist) / spacing := div_pos (by linarith) hs
  have h1 : 1 ≤ Nat.ceil ((sd - curr_dist) / spacing) := Nat.one_le_ceil_iff.mpr ht
  have hshift : (sd - (curr_dist + spacing)) / spacing = (sd - curr_dist) / spacing - 1 := by
    field_simp
    ring
  rw [hshift]
  have h2 : Nat.ceil ((sd - curr_dist) / spacing - 1) ≤
      Nat.ceil ((sd - curr_dist) / spacing) - 1 := by
    rw [Nat.ceil_le]
    push_cast [Nat.cast_sub h1]
    have := Nat.le_ceil ((sd - curr_dist) / spacing)
    linarith
  omega

/-- `gen_segment(surface_raster, wp0, wp1)` (source lines 59-106): the
sampling loop starting at `wp0` with `curr_dist = 0`, followed by the
unconditional final point exactly at the destination (source lines
98-104).  The source appends to three parallel coordinate lists in
lockstep; they are modelled as one list of `(x, y, z)` triples. -/
def gen_segment (surface_raster : ℤ → ℤ → ℝ) (wp0 wp1 : ℝ × ℝ) (spacing : ℝ) :
    List (ℝ × ℝ × ℝ) :=
  genSegLoop surface_raster (wp1.1 - wp0.1) (wp1.2 - wp0.2) (seg_dist wp0 wp1) spacing
    wp0.1 wp0.2 0
  ++ [(wp1.1, wp1.2, surface_raster (pyInt wp1.2) (pyInt wp1.1) + HEIGHT_TOL)]

/-- `gen_path(surface_raster, waypoints)` (source lines 32-49): empty
for fewer than 2 waypoints, otherwise the concatenation of the
segments between consecutive waypoints. -/
def gen_path (surface_raster : ℤ → ℤ → ℝ) (waypoints : List (ℝ × ℝ)) (spacing : ℝ) :
    List (ℝ × ℝ × ℝ) :=
  if waypoints.length < 2 then []
  else
    (List.range (waypoints.length - 1)).foldl
      (fun acc i =>
        acc ++ gen_segment surface_raster (waypoints.getD i (0, 0))
          (waypoints.getD (i + 1) (0, 0)) spacing)
      []

end

/-! ### GridLineTraversal: `raster_line` (source lines 115-156)

Waypoints are integer raster cells (spec §4.3).  The progress
comparison `(ix + 0.5) / dx < (iy + 0.5) / dy` is exact rational
arithmetic.  When the loop is entered with `dx = 0` or `dy = 0` that
comparison divides by zero, which in Python raises
`ZeroDivisionError`; `raster_line` returns `none` exactly there. -/

/-- The traversal loop `while ix < dx or iy < dy` (source lines
145-154), for `0 < dx` and `0 < dy`.  The two extra guard conjuncts
`ix ≤ dx ∧ iy ≤ dy` are loop invariants of the source (proved below as
part of `rlLoop_spec`): on every state reachable from `raster_line`
the guard coincides with the source's, and they make the recursion
well-founded. -/
def rlLoop (dx dy sx sy : ℤ) (x y ix iy : ℤ) : List (ℤ × ℤ) :=
  if h : (ix < dx ∨ iy < dy) ∧ ix ≤ dx ∧ iy ≤ dy then
    if ((ix : ℚ) + 1 / 2) / (dx : ℚ) < ((iy : ℚ) + 1 / 2) / (dy : ℚ) then
      (x + sx, y) :: rlLoop dx dy sx sy (x + sx) y (ix + 1) iy
    else
      (x, y + sy) :: rlLoop dx dy sx sy x (y + sy) ix (iy + 1)
  else []
termination_by ((dx - ix) + (dy - iy)).toNat
decreasing_by all_goals omega

/-- `raster_line(wp0, wp1)` (source lines 115-156): sign of movement
`sx, sy`, absolute deltas, the source cell emitted up front, then the
traversal loop.  If the loop is entered (some delta is positive) while
the other delta is zero, the first progress comparison divides by
zero: `none`.  If both deltas are zero the loop body never runs and
only the source cell is returned. -/
def raster_line (wp0 wp1 : ℤ × ℤ) : Option (List (ℤ × ℤ)) :=
  if 0 < |wp1.1 - wp0.1| ∨ 0 < |wp1.2 - wp0.2| then
    if |wp1.1 - wp0.1| = 0 ∨ |wp1.2 - wp0.2| = 0 then none
    else
      some ((wp0.1, wp0.2) ::
        rlLoop |wp1.1 - wp0.1| |wp1.2 - wp0.2|
          (if wp0.1 > wp1.1 then -1 else 1) (if wp0.2 > wp1.2 then -1 else 1)
          wp0.1 wp0.2 0 0)
  else some [(wp0.1, wp0.2)]

/-! ### Auxiliary predicates used by the proofs -/

/-- Invariant of the peak-extraction scan: the recorded index list is
nonempty, strictly increasing, below the position bound, and parallel
to the value list. -/
def PInv (st : PeakState) (bound : ℕ) : Prop :=
  st.peakInds ≠ [] ∧ st.peakInds.Sorted (· < ·) ∧ (∀ x ∈ st.peakInds, x < bound) ∧
    st.peaks.length = st.peakInds.length

/-- `np` has the same length as `base` and dominates it pointwise. -/
def Raised (base np : List ℚ) : Prop :=
  np.length = base.length ∧ ∀ k, base.getD k 0 ≤ np.getD k 0

/-! ### Sanity evaluations of the embedding on concrete inputs,
matching hand-traces of the Python source -/

example : slopesFull [0, 3, 0] = [3, -3] := by with_unfolding_all decide
example : fwdStep 1 (-3) [0, 3, 0] 2 = [0, 3, 2] := by with_unfolding_all decide
example : fwdPass 1 [3, -3] [0, 1, 2] [0, 3, 0] = [0, 3, 2] := by with_unfolding_all decide
example : bwdPass 1 [3, -3] [0, 1, 2] [0, 3, 2] = [2, 3, 2] := by with_unfolding_all decide
example : smooth_line [0, 3, 0] 1 = some [2, 3, 2] := by with_unfolding_all decide
example : smooth_line [3, 0, 0, 3] 3 = some [3, 3, 3, 3] := by with_unfolding_all decide
example : smooth_line [5] 1 = none := by with_unfolding_all decide
example : smooth_line [] 1 = none := by with_unfolding_all decide
example : fullPeakInds [0, 1, 1, 2, 0] = [0, 3, 4] := by with_unfolding_all decide
example : smooth_line [0, 2, 1] 2 = some [0, 2, 1] := by with_unfolding_all decide
example : smooth_line [3, 2, 3, 4, 2, 1, 3, 2, 5] 3 =
    some [3, 10/3, 11/3, 4, 11/3, 10/3, 3, 4, 5] := by with_unfolding_all decide

example : raster_line (0, 0) (0, 5) = none := by decide
example : raster_line (0, 0) (5, 0) = none := by decide
example : raster_line (2, 7) (2, 7) = some [(2, 7)] := by decide

/-! ### Peak-extraction invariants -/

theorem peakStep_inv (pts : List ℚ) (st : PeakState) (i : ℕ) (h : PInv st i) :
    PInv (peakStep pts st i) (i + 1) := by
  obtain ⟨hne, hsort, hlt, hlen⟩ := h
  have hdrop : ∀ x ∈ st.peakInds.dropLast, x < i := fun x hx =>
    hlt x (List.dropLast_subset _ hx)
  unfold peakStep
  dsimp only
  split
  · split
    · refine ⟨by simp, ?_, ?_, ?_⟩
      · exact List.pairwise_append.mpr
          ⟨List.Pairwise.sublist (List.dropLast_sublist _) hsort,
           List.pairwise_singleton _ _,
           fun a ha b hb => by
             rw [List.mem_singleton] at hb
             exact hb ▸ hdrop a ha⟩
      · intro x hx
        rcases List.mem_append.mp hx with hx | hx
        · exact Nat.lt_succ_of_lt (hdrop x hx)
        · rw [List.mem_singleton] at hx
          omega
      · simp [hlen]
    · refine ⟨by simp, ?_, ?_, ?_⟩
      · exact List.pairwise_append.mpr
          ⟨hsort, List.pairwise_singleton _ _,
           fun a ha b hb => by
             rw [List.mem_singleton] at hb
             exact hb ▸ hlt a ha⟩
      · intro x hx
        rcases List.mem_append.mp hx with hx | hx
        · exact Nat.lt_succ_of_lt (hlt x hx)
        · rw [List.mem_singleton] at hx
          omega
      · simp [hlen]
  · split
    · exact ⟨hne, hsort, fun x hx => Nat.lt_succ_of_lt (hlt x hx), hlen⟩
    · exact ⟨hne, hsort, fun x hx => Nat.lt_succ_of_lt (hlt x hx), hlen⟩

theorem peakScanAux_inv (pts : List ℚ) (k : ℕ) :
    PInv ((List.range' 1 k).foldl (peakStep pts) ⟨false, [pts.getD 0 0], [0]⟩) (k + 1) := by
  induction k with
  | zero =>
    exact ⟨by simp, List.sorted_singleton 0, by simp, rfl⟩
  | succ k ih =>
    rw [List.range'_1_concat, List.foldl_append]
    have step := peakStep_inv pts _ (1 + k) (by rwa [Nat.add_comm 1 k])
    simpa [Nat.add_comm 1 k] using step

theorem peakScan_inv (pts : List ℚ) (h2 : 2 ≤ pts.length) :
    PInv (peakScan pts) (pts.length - 1) := by
  have h := peakScanAux_inv pts (pts.length - 2)
  have : pts.length - 2 + 1 = pts.length - 1 := by omega
  rw [this] at h
  exact h

theorem fullPeakInds_sorted (pts : List ℚ) (h2 : 2 ≤ pts.length) :
    (fullPeakInds pts).Sorted (· < ·) := by
  obtain ⟨hne, hsort, hlt, hlen⟩ := peakScan_inv pts h2
  exact List.pairwise_append.mpr
    ⟨hsort, List.pairwise_singleton _ _,
     fun a ha b hb => by
       rw [List.mem_singleton] at hb
       exact hb ▸ hlt a ha⟩

theorem fullPeakInds_le (pts : List ℚ) (h2 : 2 ≤ pts.length) :
    ∀ x ∈ fullPeakInds pts, x ≤ pts.length - 1 := by
  obtain ⟨hne, hsort, hlt, hlen⟩ := peakScan_inv pts h2
  intro x hx
  rcases List.mem_append.mp hx with hx | hx
  · exact Nat.le_of_lt (hlt x hx)
  · rw [List.mem_singleton] at hx
    omega

theorem fullPeaks_length (pts : List ℚ) (h2 : 2 ≤ pts.length) :
    (fullPeaks pts).length = (fullPeakInds pts).length := by
  obtain ⟨hne, hsort, hlt, hlen⟩ := peakScan_inv pts h2
  simp [fullPeaks, fullPeakInds, hlen]

theorem sorted_getD_lt {l : List ℕ} (hsort : l.Sorted (· < ·)) {i : ℕ}
    (h1 : 1 ≤ i) (h2 : i < l.length) : l.getD (i - 1) 0 < l.getD i 0 := by
  have h3 : i - 1 < l.length := by omega
  have := List.pairwise_iff_get.mp hsort ⟨i - 1, h3⟩ ⟨i, h2⟩ (by simp; omega)
  simpa [List.getD_eq_getElem?_getD, List.getElem?_eq_getElem, h2, h3, List.get_eq_getElem]
    using this

theorem divisorZero_eq_false (pts : List ℚ) (h2 : 2 ≤ pts.length) :
    divisorZero (fullPeaks pts) (fullPeakInds pts) = false := by
  unfold divisorZero
  rw [List.any_eq_false]
  intro i hi
  rw [List.mem_range'_1] at hi
  simp only [beq_iff_eq]
  have hlen := fullPeaks_length pts h2
  have hi2 : i < (fullPeakInds pts).length := by omega
  exact Nat.ne_of_gt (sorted_getD_lt (fullPeakInds_sorted pts h2) hi.1 hi2)

theorem smooth_eq_some (pts : List ℚ) (mhd : ℚ) (h2 : 2 ≤ pts.length) :
    smooth_line pts mhd =
      some (bwdPass mhd (slopesFull pts) (fullPeakInds pts)
        (fwdPass mhd (slopesFull pts) (fullPeakInds pts) pts)) := by
  have hne : pts ≠ [] := by
    intro h
    rw [h] at h2
    simp at h2
  unfold smooth_line
  rw [if_neg hne, if_neg (by rw [divisorZero_eq_false pts h2]; simp)]

/-! ### The smoothing passes only ever raise values -/

theorem raised_refl (l : List ℚ) : Raised l l := ⟨rfl, fun _ => le_refl _⟩

theorem raised_set {base np : List ℚ} {j : ℕ} {v : ℚ} (h : Raised base np)
    (hv : np.getD j 0 < v) : Raised base (np.set j v) := by
  refine ⟨by simp [h.1], fun k => ?_⟩
  by_cases hk : j = k
  · subst hk
    by_cases hj : j < np.length
    · have hset : (np.set j v).getD j 0 = v := by
        simp [List.getD_eq_getElem?_getD, List.getElem?_set_eq_of_lt _ hj]
      rw [hset]
      exact le_of_lt (lt_of_le_of_lt (h.2 j) hv)
    · rw [List.set_eq_of_length_le (by omega)]
      exact h.2 j
  · have hset : (np.set j v).getD k 0 = np.getD k 0 := by
      simp [List.getD_eq_getElem?_getD, List.getElem?_set_ne hk]
    rw [hset]
    exact h.2 k

theorem fwdStep_raised (mhd s : ℚ) {base : List ℚ} (np : List ℚ) (j : ℕ)
    (h : Raised base np) : Raised base (fwdStep mhd s np j) := by
  unfold fwdStep
  split
  · split
    · exact raised_set h (by assumption)
    · exact h
  · split
    · exact raised_set h (by assumption)
    · exact h

theorem bwdStep_raised (mhd s : ℚ) {base : List ℚ} (np : List ℚ) (j : ℕ)
    (h : Raised base np) : Raised base (bwdStep mhd s np j) := by
  unfold bwdStep
  split
  · split
    · exact raised_set h (by assumption)
    · exact h
  · split
    · exact raised_set h (by assumption)
    · exact h

theorem foldl_preserve {α β : Type} {P : α → Prop} {f : α → β → α}
    (hf : ∀ a b, P a → P (f a b)) : ∀ (l : List β) (a : α), P a → P (l.foldl f a)
  | [], _, ha => ha
  | b :: l, a, ha => foldl_preserve hf l (f a b) (hf a b ha)

theorem fwdPass_raised (mhd : ℚ) (slopes : List ℚ) (inds : List ℕ) {base np0 : List ℚ}
    (h : Raised base np0) : Raised base (fwdPass mhd slopes inds np0) := by
  unfold fwdPass
  refine foldl_preserve (fun np i hnp => ?_) _ np0 h
  split
  · exact hnp
  · exact foldl_preserve (fun np j hnp => fwdStep_raised _ _ np j hnp) _ np hnp

theorem bwdPass_raised (mhd : ℚ) (slopes : List ℚ) (inds : List ℕ) {base np0 : List ℚ}
    (h : Raised base np0) : Raised base (bwdPass mhd slopes inds np0) := by
  unfold bwdPass
  refine foldl_preserve (fun np i hnp => ?_) _ np0 h
  split
  · exact hnp
  · exact foldl_preserve (fun np j hnp => bwdStep_raised _ _ np j hnp) _ np hnp

/-- C1: for every altitude sequence of length ≥ 2 and every
`max_height_diff`, `smooth_line` succeeds and its output dominates the
input pointwise — no position's value is ever lowered by either pass. -/
theorem C1_smooth_line_pointwise_ge (points : List ℚ) (max_height_diff : ℚ)
    (h2 : 2 ≤ points.length) :
    ∃ res, smooth_line points max_height_diff = some res ∧
      res.length = points.length ∧ ∀ k, points.getD k 0 ≤ res.getD k 0 := by
  have hr : Raised points
      (bwdPass max_height_diff (slopesFull points) (fullPeakInds points)
        (fwdPass max_height_diff (slopesFull points) (fullPeakInds points) points)) :=
    bwdPass_raised _ _ _ (fwdPass_raised _ _ _ (raised_refl points))
  exact ⟨_, smooth_eq_some points max_height_diff h2, hr.1, hr.2⟩

/-- Witness for C1 at the concrete input `[0, 3, 0]`, `max_height_diff = 1`. -/
theorem C1_smooth_line_pointwise_ge_witness :
    2 ≤ ([0, 3, 0] : List ℚ).length ∧
      ∃ res, smooth_line [0, 3, 0] 1 = some res ∧
        res.length = ([0, 3, 0] : List ℚ).length ∧
        ∀ k, ([0, 3, 0] : List ℚ).getD k 0 ≤ res.getD k 0 :=
  ⟨by decide, C1_smooth_line_pointwise_ge [0, 3, 0] 1 (by decide)⟩

/-- C2 counterexample: on `[0, 3, 0]` with `max_height_diff = 1` the
source returns `[2, 3, 2]`, not `[0, 3, 2]` as claimed — the backward
pass also raises index 0. -/
theorem C2_counterexample :
    smooth_line [0, 3, 0] 1 = some [2, 3, 2] ∧
      smooth_line [0, 3, 0] 1 ≠ some [0, 3, 2] := by
  with_unfolding_all decide

/-- C2 amended: on `[0, 3, 0]` with `max_height_diff = 1` the peaks are
recorded at indices `[0, 1, 2]` with slopes `[3, -3]`, and the forward
pass clamps index 2 to `3 - 1 = 2` giving `[0, 3, 2]`; but the backward
pass, whose index range `range(peak_ind_0, peak_ind_1)` includes the
left peak index, then also raises index 0 to `3 - 1 = 2`, so the
returned sequence is `[2, 3, 2]`. -/
theorem C2_scenario_0_3_0 :
    fullPeakInds [0, 3, 0] = [0, 1, 2] ∧
      slopesFull [0, 3, 0] = [3, -3] ∧
      fwdPass 1 (slopesFull [0, 3, 0]) (fullPeakInds [0, 3, 0]) [0, 3, 0] = [0, 3, 2] ∧
      smooth_line [0, 3, 0] 1 = some [2, 3, 2] := by
  with_unfolding_all decide

/-- C5 counterexample: a flat step does NOT clear the rising flag
(after the flat step of `[0, 1, 1]` at position 2 the flag is still
`true`), and in `[0, 1, 1, 2, 0]` the strict increase at index 3 after
the flat at index 2 replaces the recorded peak at index 1 instead of
starting a new run (index 1 is absent from the final peak indices). -/
theorem C5_counterexample :
    (peakStep [0, 1, 1] ⟨true, [0, 1], [0, 1]⟩ 2).goingUp = true ∧
      fullPeakInds [0, 1, 1, 2, 0] = [0, 3, 4] ∧
      1 ∉ fullPeakInds [0, 1, 1, 2, 0] := by
  with_unfolding_all decide

/-- C5 amended: a flat step (`value[i] == value[i-1]`) neither starts
nor continues a rise and records no peak at the flat index, but it
leaves the scan state — including the rising flag — completely
unchanged, because only a strict decrease clears the flag; hence a
strict increase while the flag is set (even one following a flat)
replaces the previous run's recorded peak instead of starting a new
recorded run. -/
theorem C5_flat_step_behaviour :
    (∀ (pts : List ℚ) (st : PeakState) (i : ℕ),
        pts.getD i 0 = pts.getD (i - 1) 0 → peakStep pts st i = st) ∧
      (∀ (pts : List ℚ) (st : PeakState) (i : ℕ),
        st.goingUp = true → pts.getD (i - 1) 0 < pts.getD i 0 →
        peakStep pts st i =
          ⟨true, st.peaks.dropLast ++ [pts.getD i 0], st.peakInds.dropLast ++ [i]⟩) := by
  constructor
  · intro pts st i hflat
    unfold peakStep
    dsimp only
    rw [hflat, if_neg (lt_irrefl _), if_neg (lt_irrefl _)]
  · intro pts st i hup hlt
    unfold peakStep
    dsimp only
    rw [if_pos hlt, if_pos hup]

/-- Witness for C5 amended: the flat step of `[0, 1, 1]` at position 2
fixes the scan state, and the strict increase of `[0, 1, 1, 2, 0]` at
position 3 replaces the recorded peak `(1, 1)` by `(3, 2)`. -/
theorem C5_flat_step_behaviour_witness :
    peakStep [0, 1, 1] ⟨true, [0, 1], [0, 1]⟩ 2 = ⟨true, [0, 1], [0, 1]⟩ ∧
      peakStep [0, 1, 1, 2, 0] ⟨true, [0, 1], [0, 1]⟩ 3 = ⟨true, [0, 2], [0, 3]⟩ :=
  ⟨C5_flat_step_behaviour.1 [0, 1, 1] ⟨true, [0, 1], [0, 1]⟩ 2 (by with_unfolding_all decide),
   C5_flat_step_behaviour.2 [0, 1, 1, 2, 0] ⟨true, [0, 1], [0, 1]⟩ 3 rfl
     (by with_unfolding_all decide)⟩

/-- C6 counterexample: on fewer than 2 samples `smooth_line` is not a
no-op — it signals an error (`none`): the empty sequence hits the
out-of-range seed access `points[0]` and the one-element sequence a
zero division in the slope loop. -/
theorem C6_counterexample :
    smooth_line ([] : List ℚ) 1 = none ∧
      smooth_line [(5 : ℚ)] 1 = none ∧
      smooth_line ([] : List ℚ) 1 ≠ some [] ∧
      smooth_line [(5 : ℚ)] 1 ≠ some [5] := by
  with_unfolding_all decide

/-- C6 amended: `smooth_line` applied to a sequence of fewer than 2
samples signals an error rather than returning the input: the empty
sequence raises on the seed access `points[0]` and a one-element
sequence raises a zero division on the peak-index pair `[0, 0]`;
both are modelled by `none`. -/
theorem C6_short_input_errors (points : List ℚ) (max_height_diff : ℚ)
    (h : points.length < 2) : smooth_line points max_height_diff = none := by
  match points, h with
  | [], _ => rfl
  | [a], _ => rfl

/-- Witness for C6 amended at the one-element input `[5]`. -/
theorem C6_short_input_errors_witness :
    ([(5 : ℚ)] : List ℚ).length < 2 ∧ smooth_line [(5 : ℚ)] 2 = none :=
  ⟨by decide, C6_short_input_errors [(5 : ℚ)] 2 (by decide)⟩

/-- C4 counterexample: for `[3, 0, 0, 3]` every adjacent difference has
magnitude ≤ 3, yet `smooth_line` with `max_height_diff = 3` returns
`[3, 3, 3, 3]`, not the input: the backward pass chord-fills the dip
between the two recorded peaks (indices 0 and 3, slope 0). -/
theorem C4_counterexample :
    |([3, 0, 0, 3] : List ℚ).getD 1 0 - ([3, 0, 0, 3] : List ℚ).getD 0 0| ≤ 3 ∧
      |([3, 0, 0, 3] : List ℚ).getD 2 0 - ([3, 0, 0, 3] : List ℚ).getD 1 0| ≤ 3 ∧
      |([3, 0, 0, 3] : List ℚ).getD 3 0 - ([3, 0, 0, 3] : List ℚ).getD 2 0| ≤ 3 ∧
      smooth_line [3, 0, 0, 3] 3 = some [3, 3, 3, 3] ∧
      smooth_line [3, 0, 0, 3] 3 ≠ some [3, 0, 0, 3] := by
  with_unfolding_all decide

/-! ### When the passes fire no write at all -/

theorem foldl_id {α β : Type} {f : α → β → α} {a : α} :
    ∀ {l : List β}, (∀ b ∈ l, f a b = a) → l.foldl f a = a
  | [], _ => rfl
  | b :: l, h => by
    rw [List.foldl_cons, h b (List.mem_cons_self b l)]
    exact foldl_id fun b' hb' => h b' (List.mem_cons_of_mem b hb')

theorem sorted_getD_succ_lt {l : List ℕ} (hsort : l.Sorted (· < ·)) {i : ℕ}
    (h : i + 1 < l.length) : l.getD i 0 < l.getD (i + 1) 0 := by
  have := sorted_getD_lt hsort (Nat.le_add_left 1 i) h
  simpa using this

theorem getD_mem_of_lt {l : List ℕ} {n : ℕ} (h : n < l.length) : l.getD n 0 ∈ l := by
  rw [List.getD_eq_getElem?_getD, List.getElem?_eq_getElem h]
  exact List.getElem_mem h

theorem slopesFull_length (pts : List ℚ) :
    (slopesFull pts).length = (fullPeaks pts).length - 1 := by
  simp [slopesFull, slopesOf]

theorem fwdPass_id_of_linear (pts : List ℚ) (mhd : ℚ) (h2 : 2 ≤ pts.length)
    (hdiff : ∀ j, j < pts.length → 1 ≤ j → |pts.getD j 0 - pts.getD (j - 1) 0| ≤ mhd)
    (hlin : ∀ i, i < (slopesFull pts).length → ∀ j,
      j ≤ (fullPeakInds pts).getD (i + 1) 0 → (fullPeakInds pts).getD i 0 < j →
      pts.getD j 0 - pts.getD (j - 1) 0 = (slopesFull pts).getD i 0) :
    fwdPass mhd (slopesFull pts) (fullPeakInds pts) pts = pts := by
  have hlen : (slopesFull pts).length = (fullPeakInds pts).length - 1 := by
    rw [slopesFull_length, fullPeaks_length pts h2]
  have hindsne : (fullPeakInds pts).length ≠ 0 := by
    simp [fullPeakInds]
  unfold fwdPass
  apply foldl_id
  intro i hi
  rw [List.mem_range] at hi
  by_cases hs : (slopesFull pts).getD i 0 ≥ 0
  · rw [if_pos hs]
  · rw [if_neg hs]
    apply foldl_id
    intro j hj
    rw [List.mem_range'_1] at hj
    have hi1 : i + 1 < (fullPeakInds pts).length := by omega
    have hab : (fullPeakInds pts).getD i 0 < (fullPeakInds pts).getD (i + 1) 0 :=
      sorted_getD_succ_lt (fullPeakInds_sorted pts h2) hi1
    have hja : (fullPeakInds pts).getD i 0 < j := by omega
    have hjb : j ≤ (fullPeakInds pts).getD (i + 1) 0 := by omega
    have hd := hlin i hi j hjb hja
    have hjlen : j < pts.length := by
      have hble := fullPeakInds_le pts h2 _ (getD_mem_of_lt hi1)
      omega
    have habs := hdiff j hjlen (by omega)
    rw [hd] at habs
    rw [abs_le] at habs
    unfold fwdStep
    rw [if_neg (by linarith [habs.1]), if_neg (by rw [gt_iff_lt, not_lt]; linarith [hd])]

theorem bwdPass_id_of_linear (pts : List ℚ) (mhd : ℚ) (h2 : 2 ≤ pts.length)
    (hdiff : ∀ j, j < pts.length → 1 ≤ j → |pts.getD j 0 - pts.getD (j - 1) 0| ≤ mhd)
    (hlin : ∀ i, i < (slopesFull pts).length → ∀ j,
      j ≤ (fullPeakInds pts).getD (i + 1) 0 → (fullPeakInds pts).getD i 0 < j →
      pts.getD j 0 - pts.getD (j - 1) 0 = (slopesFull pts).getD i 0) :
    bwdPass mhd (slopesFull pts) (fullPeakInds pts) pts = pts := by
  have hlen : (slopesFull pts).length = (fullPeakInds pts).length - 1 := by
    rw [slopesFull_length, fullPeaks_length pts h2]
  unfold bwdPass
  apply foldl_id
  intro i hi
  rw [List.mem_reverse, List.mem_range] at hi
  by_cases hs : (slopesFull pts).getD i 0 < 0
  · rw [if_pos hs]
  · rw [if_neg hs]
    apply foldl_id
    intro j hj
    rw [List.mem_reverse, List.mem_range'_1] at hj
    have hi1 : i + 1 < (fullPeakInds pts).length := by omega
    have hab : (fullPeakInds pts).getD i 0 < (fullPeakInds pts).getD (i + 1) 0 :=
      sorted_getD_succ_lt (fullPeakInds_sorted pts h2) hi1
    have hja : (fullPeakInds pts).getD i 0 < j + 1 := by omega
    have hjb : j + 1 ≤ (fullPeakInds pts).getD (i + 1) 0 := by omega
    have hd := hlin i hi (j + 1) hjb hja
    rw [Nat.add_sub_cancel] at hd
    have hjlen : j + 1 < pts.length := by
      have hble := fullPeakInds_le pts h2 _ (getD_mem_of_lt hi1)
      omega
    have habs := hdiff (j + 1) hjlen (by omega)
    rw [Nat.add_sub_cancel, hd] at habs
    rw [abs_le] at habs
    unfold bwdStep
    rw [if_neg (by rw [gt_iff_lt, not_lt]; linarith [habs.2]),
      if_neg (by rw [gt_iff_lt, not_lt]; linarith [hd])]

/-- C4 amended: if `max_height_diff` is at least the largest
adjacent-sample difference magnitude AND the sequence is linear
between consecutive recorded peaks (inside every peak interval each
adjacent difference equals the interval's peak-to-peak slope), then
`smooth_line` returns the input unchanged.  Without the linearity
condition the claim fails (`C4_counterexample`): the passes chord-fill
interior dips between peaks. -/
theorem C4_smooth_line_id (points : List ℚ) (max_height_diff : ℚ)
    (h2 : 2 ≤ points.length)
    (hdiff : ∀ j, j < points.length → 1 ≤ j →
      |points.getD j 0 - points.getD (j - 1) 0| ≤ max_height_diff)
    (hlin : ∀ i, i < (slopesFull points).length → ∀ j,
      j ≤ (fullPeakInds points).getD (i + 1) 0 → (fullPeakInds points).getD i 0 < j →
      points.getD j 0 - points.getD (j - 1) 0 = (slopesFull points).getD i 0) :
    smooth_line points max_height_diff = some points := by
  rw [smooth_eq_some points max_height_diff h2,
    fwdPass_id_of_linear points max_height_diff h2 hdiff hlin,
    bwdPass_id_of_linear points max_height_diff h2 hdiff hlin]

/-- Witness for C4 amended at `[0, 2, 1]` with `max_height_diff = 2`:
the sequence is linear on both of its peak intervals and is returned
unchanged. -/
theorem C4_smooth_line_id_witness :
    (2 ≤ ([0, 2, 1] : List ℚ).length ∧
      (∀ j, j < ([0, 2, 1] : List ℚ).length → 1 ≤ j →
        |([0, 2, 1] : List ℚ).getD j 0 - ([0, 2, 1] : List ℚ).getD (j - 1) 0| ≤ 2) ∧
      (∀ i, i < (slopesFull [0, 2, 1]).length → ∀ j,
        j ≤ (fullPeakInds [0, 2, 1]).getD (i + 1) 0 →
        (fullPeakInds [0, 2, 1]).getD i 0 < j →
        ([0, 2, 1] : List ℚ).getD j 0 - ([0, 2, 1] : List ℚ).getD (j - 1) 0 =
          (slopesFull [0, 2, 1]).getD i 0)) ∧
    smooth_line [0, 2, 1] 2 = some [0, 2, 1] := by
  refine ⟨⟨by decide, ?_, ?_⟩, ?_⟩
  · with_unfolding_all decide
  · with_unfolding_all decide
  · exact C4_smooth_line_id [0, 2, 1] 2 (by decide) (by with_unfolding_all decide)
      (by with_unfolding_all decide)

/-! ### Counting the iterations of the segment sampling loop -/

theorem nat_ceil_sub_one {t : ℝ} (ht : 0 < t) : Nat.ceil (t - 1) = Nat.ceil t - 1 := by
  have h1 : 1 ≤ Nat.ceil t := Nat.one_le_ceil_iff.mpr ht
  have hle : Nat.ceil (t - 1) ≤ Nat.ceil t - 1 := by
    rw [Nat.ceil_le]
    push_cast [Nat.cast_sub h1]
    linarith [Nat.le_ceil t]
  have hge : Nat.ceil t ≤ Nat.ceil (t - 1) + 1 := by
    rw [Nat.ceil_le]
    push_cast
    linarith [Nat.le_ceil (t - 1)]
  omega

theorem genSegLoop_length (surface_raster : ℤ → ℤ → ℝ) (dx dy sd s : ℝ) (hs : 0 < s) :
    ∀ (n : ℕ) (x y curr : ℝ), Nat.ceil ((sd - curr) / s) ≤ n →
      (genSegLoop surface_raster dx dy sd s x y curr).length =
        Nat.ceil ((sd - curr) / s) := by
  intro n
  induction n with
  | zero =>
    intro x y curr hn
    have h0 : Nat.ceil ((sd - curr) / s) = 0 := Nat.le_zero.mp hn
    rw [genSegLoop, dif_neg]
    · simp [h0]
    · rintro ⟨-, hlt⟩
      have ht : (0 : ℝ) < (sd - curr) / s := div_pos (by linarith) hs
      rw [Nat.ceil_eq_zero] at h0
      linarith
  | succ n ih =>
    intro x y curr hn
    by_cases hlt : curr < sd
    · have ht : (0 : ℝ) < (sd - curr) / s := div_pos (by linarith) hs
      have h1 : 1 ≤ Nat.ceil ((sd - curr) / s) := Nat.one_le_ceil_iff.mpr ht
      have hshift : (sd - (curr + s)) / s = (sd - curr) / s - 1 := by
        field_simp
        ring
      have hceil : Nat.ceil ((sd - (curr + s)) / s) = Nat.ceil ((sd - curr) / s) - 1 := by
        rw [hshift, nat_ceil_sub_one ht]
      rw [genSegLoop, dif_pos ⟨hs, hlt⟩, List.length_cons,
        ih (x + dx * s / sd) (y + dy * s / sd) (curr + s) (by omega), hceil]
      omega
    · have hnum : sd - curr ≤ 0 := by linarith
      have h0 : Nat.ceil ((sd - curr) / s) = 0 := by
        rw [Nat.ceil_eq_zero]
        exact div_nonpos_iff.mpr (Or.inr ⟨hnum, le_of_lt hs⟩)
      rw [genSegLoop, dif_neg (by rintro ⟨-, h⟩; exact hlt h), h0]
      rfl

/-- C3: for every waypoint pair at positive Euclidean distance `L` and
every positive spacing, `gen_segment` emits exactly
`⌈L / spacing⌉ + 1` points and its last point is exactly the
destination waypoint (with the height sampled at the destination's
truncated coordinates plus the clearance). -/
theorem C3_gen_segment_count (surface_raster : ℤ → ℤ → ℝ) (wp0 wp1 : ℝ × ℝ)
    (spacing : ℝ) (hs : 0 < spacing) (hd : 0 < seg_dist wp0 wp1) :
    (gen_segment surface_raster wp0 wp1 spacing).length =
      Nat.ceil (seg_dist wp0 wp1 / spacing) + 1 ∧
    (gen_segment surface_raster wp0 wp1 spacing).getLast? =
      some (wp1.1, wp1.2, surface_raster (pyInt wp1.2) (pyInt wp1.1) + HEIGHT_TOL) := by
  constructor
  · unfold gen_segment
    rw [List.length_append,
      genSegLoop_length surface_raster _ _ _ _ hs (Nat.ceil ((seg_dist wp0 wp1 - 0) / spacing))
        wp0.1 wp0.2 0 (le_refl _)]
    rw [sub_zero]
    rfl
  · exact List.getLast?_concat _

/-- Witness for C3 at waypoints `(0, 0)` and `(3, 4)` (distance 5) with
spacing 1 over the constant-zero raster. -/
theorem C3_gen_segment_count_witness :
    (0 : ℝ) < 1 ∧ 0 < seg_dist ((0 : ℝ), (0 : ℝ)) ((3 : ℝ), (4 : ℝ)) ∧
      ((gen_segment (fun _ _ => 0) ((0 : ℝ), (0 : ℝ)) ((3 : ℝ), (4 : ℝ)) 1).length =
        Nat.ceil (seg_dist ((0 : ℝ), (0 : ℝ)) ((3 : ℝ), (4 : ℝ)) / 1) + 1 ∧
      (gen_segment (fun _ _ => 0) ((0 : ℝ), (0 : ℝ)) ((3 : ℝ), (4 : ℝ)) 1).getLast? =
        some (((3 : ℝ), (4 : ℝ)).1, ((3 : ℝ), (4 : ℝ)).2,
          (fun _ _ => (0 : ℝ)) (pyInt ((3 : ℝ), (4 : ℝ)).2) (pyInt ((3 : ℝ), (4 : ℝ)).1) +
            HEIGHT_TOL)) := by
  have h1 : (0 : ℝ) < 1 := one_pos
  have hd : 0 < seg_dist ((0 : ℝ), (0 : ℝ)) ((3 : ℝ), (4 : ℝ)) := by
    rw [seg_dist]
    rw [Real.sqrt_pos]
    norm_num
  exact ⟨h1, hd, C3_gen_segment_count (fun _ _ => 0) _ _ 1 h1 hd⟩

/-- C8: when the two waypoints coincide the segment length is 0, the
sampling loop body never runs (so the division by `seg_dist` inside it
is never evaluated), and `gen_segment` returns exactly one point: the
source waypoint with the raster height at its truncated coordinates
plus the clearance. -/
theorem C8_gen_segment_degenerate (surface_raster : ℤ → ℤ → ℝ) (wp : ℝ × ℝ)
    (spacing : ℝ) :
    gen_segment surface_raster wp wp spacing =
      [(wp.1, wp.2, surface_raster (pyInt wp.2) (pyInt wp.1) + HEIGHT_TOL)] := by
  unfold gen_segment
  have hsd : seg_dist wp wp = 0 := by
    rw [seg_dist]
    simp
  rw [hsd, genSegLoop, dif_neg (by rintro ⟨-, h⟩; exact absurd h (lt_irrefl 0)), List.nil_append]

theorem foldl_append_length {α β : Type} (f : β → List α) :
    ∀ (l : List β) (acc : List α),
      (l.foldl (fun a b => a ++ f b) acc).length =
        acc.length + (l.map fun b => (f b).length).sum
  | [], acc => by simp
  | b :: l, acc => by
    rw [List.foldl_cons, foldl_append_length f l (acc ++ f b)]
    simp [List.length_append]
    omega

/-- C10: with positive spacing the sampling loop of `gen_segment`
terminates after at most `⌈L / spacing⌉` iterations (it emits one
point per iteration), and `gen_path` over any finite waypoint list is
total, its length being the finite sum of its segments' lengths. -/
theorem C10_gen_segment_terminates (surface_raster : ℤ → ℤ → ℝ)
    (dx dy sd spacing x y : ℝ) (waypoints : List (ℝ × ℝ)) (hs : 0 < spacing) :
    (genSegLoop surface_raster dx dy sd spacing x y 0).length ≤
      Nat.ceil (sd / spacing) ∧
    (gen_path surface_raster waypoints spacing).length =
      ((List.range (waypoints.length - 1)).map fun i =>
        (gen_segment surface_raster (waypoints.getD i (0, 0))
          (waypoints.getD (i + 1) (0, 0)) spacing).length).sum := by
  constructor
  · rw [genSegLoop_length surface_raster _ _ _ _ hs (Nat.ceil ((sd - 0) / spacing))
      x y 0 (le_refl _), sub_zero]
  · unfold gen_path
    split
    · rename_i hlt
      match waypoints, hlt with
      | [], _ => simp
      | [w], _ => simp
    · rw [foldl_append_length]
      simp

/-- Witness for C10 with `sd = 5`, `spacing = 1` over the constant-zero
raster and an empty waypoint list. -/
theorem C10_gen_segment_terminates_witness :
    (0 : ℝ) < 1 ∧
      ((genSegLoop (fun _ _ => 0) 3 4 5 1 0 0 0).length ≤ Nat.ceil ((5 : ℝ) / 1) ∧
      (gen_path (fun _ _ => 0) [] 1).length =
        ((List.range (([] : List (ℝ × ℝ)).length - 1)).map fun i =>
          (gen_segment (fun _ _ => 0) (([] : List (ℝ × ℝ)).getD i (0, 0))
            (([] : List (ℝ × ℝ)).getD (i + 1) (0, 0)) 1).length).sum) :=
  ⟨one_pos, C10_gen_segment_terminates (fun _ _ => 0) 3 4 5 1 0 0 [] one_pos⟩

/-! ### The grid traversal loop -/

set_option maxHeartbeats 1600000 in
theorem rlLoop_eq (dx dy sx sy x y ix iy : ℤ) :
    rlLoop dx dy sx sy x y ix iy =
      if h : (ix < dx ∨ iy < dy) ∧ ix ≤ dx ∧ iy ≤ dy then
        if ((ix : ℚ) + 1 / 2) / (dx : ℚ) < ((iy : ℚ) + 1 / 2) / (dy : ℚ) then
          (x + sx, y) :: rlLoop dx dy sx sy (x + sx) y (ix + 1) iy
        else
          (x, y + sy) :: rlLoop dx dy sx sy x (y + sy) ix (iy + 1)
      else [] := by
  conv_lhs => rw [rlLoop]

theorem rlLoop_spec (dx dy sx sy : ℤ) (hdx : 0 < dx) (hdy : 0 < dy) :
    ∀ (n : ℕ) (x y ix iy : ℤ), ix ≤ dx → iy ≤ dy → ((dx - ix) + (dy - iy)).toNat = n →
      (rlLoop dx dy sx sy x y ix iy).length = n ∧
      ((x, y) :: rlLoop dx dy sx sy x y ix iy).getLast? =
        some (x + sx * (dx - ix), y + sy * (dy - iy)) := by
  have hdxQ : (0 : ℚ) < (dx : ℚ) := by exact_mod_cast hdx
  have hdyQ : (0 : ℚ) < (dy : ℚ) := by exact_mod_cast hdy
  intro n
  induction n with
  | zero =>
    intro x y ix iy hix hiy hn
    have hix' : ix = dx := by omega
    have hiy' : iy = dy := by omega
    rw [rlLoop_eq, dif_neg (by omega)]
    refine ⟨rfl, ?_⟩
    rw [List.getLast?_singleton, hix', hiy']
    simp
  | succ n ih =>
    intro x y ix iy hix hiy hn
    have hguard : ix < dx ∨ iy < dy := by omega
    rw [rlLoop_eq, dif_pos ⟨hguard, hix, hiy⟩]
    by_cases hc : ((ix : ℚ) + 1 / 2) / (dx : ℚ) < ((iy : ℚ) + 1 / 2) / (dy : ℚ)
    · rw [if_pos hc]
      have hixlt : ix < dx := by
        by_contra hn'
        have hixeq : ix = dx := by omega
        have hiylt : iy < dy := by omega
        have hL : (1 : ℚ) < ((ix : ℚ) + 1 / 2) / (dx : ℚ) := by
          rw [lt_div_iff₀ hdxQ, one_mul, hixeq]
          linarith
        have hiyQ : (iy : ℚ) + 1 ≤ (dy : ℚ) := by exact_mod_cast (by omega : iy + 1 ≤ dy)
        have hR : ((iy : ℚ) + 1 / 2) / (dy : ℚ) < 1 := by
          rw [div_lt_one hdyQ]
          linarith
        linarith
      obtain ⟨ihl, ihg⟩ := ih (x + sx) y (ix + 1) iy (by omega) hiy (by omega)
      refine ⟨by rw [List.length_cons, ihl], ?_⟩
      rw [List.getLast?_cons_cons, ihg]
      have hx : x + sx + sx * (dx - (ix + 1)) = x + sx * (dx - ix) := by ring
      rw [hx]
    · rw [if_neg hc]
      have hiylt : iy < dy := by
        by_contra hn'
        have hiyeq : iy = dy := by omega
        have hixlt : ix < dx := by omega
        have hixQ : (ix : ℚ) + 1 ≤ (dx : ℚ) := by exact_mod_cast (by omega : ix + 1 ≤ dx)
        have hL : ((ix : ℚ) + 1 / 2) / (dx : ℚ) < 1 := by
          rw [div_lt_one hdxQ]
          linarith
        have hR : (1 : ℚ) < ((iy : ℚ) + 1 / 2) / (dy : ℚ) := by
          rw [lt_div_iff₀ hdyQ, one_mul, hiyeq]
          linarith
        exact hc (by linarith)
      obtain ⟨ihl, ihg⟩ := ih x (y + sy) ix (iy + 1) hix (by omega) (by omega)
      refine ⟨by rw [List.length_cons, ihl], ?_⟩
      rw [List.getLast?_cons_cons, ihg]
      have hy : y + sy + sy * (dy - (iy + 1)) = y + sy * (dy - iy) := by ring
      rw [hy]

/-- C9: for integer endpoints with both deltas positive, `raster_line`
succeeds and returns exactly `dx + dy + 1` cells, the first being the
source and the last the destination. -/
theorem C9_raster_line_count (wp0 wp1 : ℤ × ℤ)
    (hdx : 0 < |wp1.1 - wp0.1|) (hdy : 0 < |wp1.2 - wp0.2|) :
    ∃ pts, raster_line wp0 wp1 = some pts ∧
      (pts.length : ℤ) = |wp1.1 - wp0.1| + |wp1.2 - wp0.2| + 1 ∧
      pts.head? = some (wp0.1, wp0.2) ∧
      pts.getLast? = some (wp1.1, wp1.2) := by
  unfold raster_line
  rw [if_pos (Or.inl hdx), if_neg (by omega)]
  obtain ⟨hl, hg⟩ := rlLoop_spec |wp1.1 - wp0.1| |wp1.2 - wp0.2|
    (if wp0.1 > wp1.1 then -1 else 1) (if wp0.2 > wp1.2 then -1 else 1) hdx hdy
    ((|wp1.1 - wp0.1| + |wp1.2 - wp0.2|).toNat) wp0.1 wp0.2 0 0
    (by omega) (by omega) (by omega)
  refine ⟨_, rfl, ?_, rfl, ?_⟩
  · rw [List.length_cons, hl]
    have h1 : 0 ≤ |wp1.1 - wp0.1| := abs_nonneg _
    have h2 : 0 ≤ |wp1.2 - wp0.2| := abs_nonneg _
    push_cast [Int.toNat_of_nonneg (by omega : (0:ℤ) ≤ |wp1.1 - wp0.1| + |wp1.2 - wp0.2|)]
    ring
  · rw [hg]
    have hx : wp0.1 + (if wp0.1 > wp1.1 then (-1 : ℤ) else 1) * (|wp1.1 - wp0.1| - 0) =
        wp1.1 := by
      by_cases h : wp0.1 > wp1.1
      · rw [if_pos h, abs_of_neg (by omega)]
        ring
      · rw [if_neg h, abs_of_nonneg (by omega)]
        ring
    have hy : wp0.2 + (if wp0.2 > wp1.2 then (-1 : ℤ) else 1) * (|wp1.2 - wp0.2| - 0) =
        wp1.2 := by
      by_cases h : wp0.2 > wp1.2
      · rw [if_pos h, abs_of_neg (by omega)]
        ring
      · rw [if_neg h, abs_of_nonneg (by omega)]
        ring
    rw [hx, hy]

/-- Witness for C9 at the waypoints `(0, 0)` and `(1, 7)` of the
source's own debug example: 9 cells from source to destination. -/
theorem C9_raster_line_count_witness :
    0 < |((1, 7) : ℤ × ℤ).1 - ((0, 0) : ℤ × ℤ).1| ∧
      0 < |((1, 7) : ℤ × ℤ).2 - ((0, 0) : ℤ × ℤ).2| ∧
      ∃ pts, raster_line (0, 0) (1, 7) = some pts ∧
        (pts.length : ℤ) =
          |((1, 7) : ℤ × ℤ).1 - ((0, 0) : ℤ × ℤ).1| +
            |((1, 7) : ℤ × ℤ).2 - ((0, 0) : ℤ × ℤ).2| + 1 ∧
        pts.head? = some (((0, 0) : ℤ × ℤ).1, ((0, 0) : ℤ × ℤ).2) ∧
        pts.getLast? = some (((1, 7) : ℤ × ℤ).1, ((1, 7) : ℤ × ℤ).2) :=
  ⟨by decide, by decide, C9_raster_line_count (0, 0) (1, 7) (by decide) (by decide)⟩

/-- C7: contrary to the claim, `raster_line` does NOT special-case a
single degenerate axis: entering the loop with `dx = 0` (or `dy = 0`)
evaluates `(ix + 0.5) / dx` (resp. the right-hand side) with a zero
denominator, a `ZeroDivisionError` in Python, modelled by `none`.
Only the doubly degenerate case `dx = dy = 0` avoids the division,
because the loop body never runs. -/
theorem C7_raster_line_degenerate_axis_raises :
    raster_line (0, 0) (0, 5) = none ∧
      raster_line (0, 0) (5, 0) = none ∧
      raster_line (0, 0) (0, 0) = some [(0, 0)] := by
  refine ⟨by decide, by decide, by decide⟩

end AerialLidarPP
